import Mathlib

/-!
Verification of the gurbani-finder search pipeline.

Shallow embedding of the string processing and search functions of
`app.py`, `main_app.py` and `convert_to_json.py`.  Strings are modelled as
`List Char` (Python 3 strings are sequences of Unicode scalar values).
Machine-independent integers (`Int`/`Nat`) model Python integers, and the
`SequenceMatcher.ratio` value is modelled in `ℚ` (the Python float is the
rounding of this rational; the properties proved here are exact for the
rational and carry over to the float because the bounds 0 and 1 are
representable).  File and network input is passed as explicit data: the
corpus of `main_app.search_gurbani` is a `List Record` parameter, and the
HTTP layer of `app.search_sttm_api` is an `oracle` returning `Except`,
whose `error` case models a raised exception of `requests.get` or
`response.json`.
-/

/-- Python `str.isspace` / the `\s` class of `re` (both are backed by
`Py_UNICODE_ISSPACE` in CPython, so one predicate models both). -/
def pyIsSpace (c : Char) : Bool :=
  c.toNat = 0x20 || c.toNat = 0x9 || c.toNat = 0xa || c.toNat = 0xb ||
  c.toNat = 0xc || c.toNat = 0xd ||
  (0x1c ≤ c.toNat && c.toNat ≤ 0x1f) ||
  c.toNat = 0x85 || c.toNat = 0xa0 || c.toNat = 0x1680 ||
  (0x2000 ≤ c.toNat && c.toNat ≤ 0x200a) ||
  c.toNat = 0x2028 || c.toNat = 0x2029 || c.toNat = 0x202f ||
  c.toNat = 0x205f || c.toNat = 0x3000

/-- Membership in the Gurmukhi Unicode block, the test
`'਀' <= char <= '੿'` of both `clean_gurmukhi_text` variants. -/
def isGurmukhi (c : Char) : Bool :=
  0x0A00 ≤ c.toNat && c.toNat ≤ 0x0A7F

/-- Python `str.lower`, restricted to ASCII letters.  The full Unicode
case mapping is the identity on every character produced by the cleaning
step (the Gurmukhi block has no case), so this restriction does not
change any value computed by the embedded functions. -/
def pyLower (c : Char) : Char :=
  if 0x41 ≤ c.toNat ∧ c.toNat ≤ 0x5A then Char.ofNat (c.toNat + 32) else c

/-- `re.sub(r'\s+', ' ', text)`: every maximal run of whitespace becomes a
single space. -/
def collapseWS : List Char → List Char
  | [] => []
  | [c] => if pyIsSpace c then [' '] else [c]
  | c :: d :: rest =>
    if pyIsSpace c && pyIsSpace d then collapseWS (d :: rest)
    else (if pyIsSpace c then ' ' else c) :: collapseWS (d :: rest)

/-- Removal of trailing whitespace (the right half of Python `str.strip`). -/
def rstripWS : List Char → List Char
  | [] => []
  | c :: cs =>
    match rstripWS cs with
    | [] => if pyIsSpace c then [] else [c]
    | r => c :: r

/-- Python `str.strip()` with no argument: drop leading and trailing
whitespace. -/
def pyStrip (l : List Char) : List Char :=
  rstripWS (l.dropWhile pyIsSpace)

/-- Accumulator pass of `pySplit`: `acc` is the current word reversed. -/
def pySplitAux : List Char → List Char → List (List Char)
  | [], acc => if acc = [] then [] else [acc.reverse]
  | c :: cs, acc =>
    if pyIsSpace c then
      if acc = [] then pySplitAux cs [] else acc.reverse :: pySplitAux cs []
    else pySplitAux cs (c :: acc)

/-- Python `str.split()` with no argument: split on whitespace runs,
dropping empty pieces. -/
def pySplit (l : List Char) : List (List Char) :=
  pySplitAux l []

/-- `w` occurs at the start of `g`. -/
def startsWith : List Char → List Char → Bool
  | _, [] => true
  | [], _ :: _ => false
  | b :: g, a :: w => a == b && startsWith g w

/-- Python substring containment `w in g`. -/
def hasSubstr : List Char → List Char → Bool
  | g, w =>
    startsWith g w ||
    match g with
    | [] => false
    | _ :: g => hasSubstr g w

/-- Value of an ASCII digit. -/
def digitVal (c : Char) : Option Nat :=
  if 0x30 ≤ c.toNat ∧ c.toNat ≤ 0x39 then some (c.toNat - 0x30) else none

/-- Parse a nonempty all-digit string. -/
def digitsVal : List Char → Option Nat
  | [] => none
  | [c] => digitVal c
  | c :: cs => do
    let d ← digitVal c
    let r ← digitsVal cs
    pure (d * (10 ^ cs.length) + r)

/-- Python `int(s)` on a string: optional surrounding whitespace, an
optional sign, then decimal digits; anything else raises `ValueError`,
modelled as `none`.  (Digit-grouping underscores and non-ASCII decimal
digits, which CPython also accepts, do not occur in this corpus and are
not modelled.) -/
def pyIntStr (s : List Char) : Option Int :=
  match pyStrip s with
  | '+' :: r => (digitsVal r).map (fun n => (n : Int))
  | '-' :: r => (digitsVal r).map (fun n => -(n : Int))
  | r => (digitsVal r).map (fun n => (n : Int))

/-- Keep the first element for every key, in order: the dedup idiom
`seen = set(); ... if key not in seen` of `search_sttm_api`, and
`dict.fromkeys` on the search-query list. -/
def dedupByKeyGo {α β : Type} [DecidableEq β] (key : α → β) :
    List α → List β → List α
  | [], _ => []
  | x :: xs, seen =>
    if key x ∈ seen then dedupByKeyGo key xs seen
    else x :: dedupByKeyGo key xs (key x :: seen)

def dedupByKey {α β : Type} [DecidableEq β] (key : α → β) (l : List α) : List α :=
  dedupByKeyGo key l []

/-- Insert before the first element whose key is not larger: the unique
stable position for a descending order. -/
def insertDescBy {α β : Type} [LinearOrder β] (key : α → β) (x : α) :
    List α → List α
  | [] => [x]
  | y :: ys => if key y ≤ key x then x :: y :: ys else y :: insertDescBy key x ys

/-- Python `list.sort(key=..., reverse=True)`: the unique stable
descending sort by the key.  Timsort and this insertion sort agree
because a stable sort is determined by its comparator. -/
def sortDescBy {α β : Type} [LinearOrder β] (key : α → β) : List α → List α
  | [] => []
  | x :: xs => insertDescBy key x (sortDescBy key xs)

/-- `sum(1 for word in query_words if word in gurmukhi)`. -/
def matchScore (qws : List (List Char)) (g : List Char) : Nat :=
  qws.countP (fun w => hasSubstr g w)

/-- One entry of a per-language translation list in `gurbani.json`. -/
structure TransEntry where
  text : List Char
  asset : List Char
deriving DecidableEq

/-- The translation dictionary of a record.  The scripts only ever read
the keys "en" and "pa", so only those two are modelled; `none` models an
absent key. -/
structure Translations where
  en : Option (List TransEntry)
  pa : Option (List TransEntry)
deriving DecidableEq

/-- A record of `gurbani.json` as written by `convert_to_json.py`. -/
structure Record where
  source_file : List Char
  asset : Option (List Char)
  page : Option Int
  line : Option Int
  gurmukhi : List Char
  translations : Translations
deriving DecidableEq

/-- A result dict of `main_app.search_gurbani`. -/
structure MResult where
  gurmukhi : List Char
  english : List Char
  punjabi : List Char
  page : Option Int
  line : Option Int
  asset : Option (List Char)
  match_score : Nat
deriving DecidableEq

/-- One verse of a BaniDB API response, with the fields the script reads:
`verse.verse.gurmukhi`, `verse.verse.translation.en.bdb`,
`verse.verse.pageNum`, `verse.lineNum`. -/
structure ApiVerse where
  gurmukhi : List Char
  enBdb : Option (List Char)
  pageNum : Option Int
  lineNum : Option Int
deriving DecidableEq

/-- A parsed HTTP response: status code and the `verses` array (an absent
or empty array both contribute no results, so one list field models
both). -/
structure ApiResponse where
  status : Nat
  verses : List ApiVerse
deriving DecidableEq

/-- A result dict of `app.search_sttm_api`. -/
structure SttmRes where
  gurmukhi : List Char
  english : List Char
  page : Option Int
  line : Option Int
  similarity : ℚ
deriving DecidableEq

/-- A result dict of `convert_to_json.search_gurbani`. -/
structure CResult where
  gurmukhi : List Char
  english : List Char
  punjabi : List Char
  page : Option Int
  line : Option Int
  asset : Option (List Char)
  all_translations : Translations
deriving DecidableEq

/-- A scalar TOML value as `toml.load` returns it for a `page`/`line`
field. -/
inductive TomlVal where
  | tInt : Int → TomlVal
  | tStr : List Char → TomlVal
  | tBool : Bool → TomlVal
  | tOther : TomlVal
deriving DecidableEq

/-- Python `int(v)` on a TOML scalar: ints pass through, strings are
parsed, bools coerce, anything else raises (`none`). -/
def pyIntOf : TomlVal → Option Int
  | .tInt n => some n
  | .tStr s => pyIntStr s
  | .tBool b => some (if b then 1 else 0)
  | .tOther => none

/-- A `primary` content block of a TOML line file, with the fields
`convert_to_json.py` reads. -/
structure Primary where
  data : List Char
  page : Option TomlVal
  line : Option TomlVal
  asset : Option (List Char)
deriving DecidableEq

/-! ### difflib.SequenceMatcher with isjunk=None

The model follows CPython difflib.  With `isjunk=None` the junk set
`bjunk` is empty; `autojunk` removes "popular" elements of `b` (count
exceeding `len(b)//100 + 1`, only when `len(b) >= 200`) from the index
`b2j`, so the dynamic program finds the longest popular-free block,
leftmost in `a` and then in `b`; the subsequent extension loops of
`find_longest_match` with `not isbjunk(...) = True` then grow that block
over arbitrary equal elements on both sides, and the two loops guarded by
`isbjunk(...)` never fire. -/

namespace Difflib

/-- An element `autojunk` removes from `b2j`. -/
def isPopular (b : List Char) (c : Char) : Bool :=
  decide (200 ≤ b.length) && decide (b.length / 100 + 1 < b.count c)

/-- `(i, j, k)` describes equal popular-free slices `a[i:i+k]` and
`b[j:j+k]` inside the window `a[alo:ahi]`, `b[blo:bhi]`. -/
def cleanMatchB (a b : List Char) (alo ahi blo bhi : Nat)
    (t : Nat × Nat × Nat) : Bool :=
  decide (alo ≤ t.1) && decide (t.1 + t.2.2 ≤ ahi) &&
  decide (blo ≤ t.2.1) && decide (t.2.1 + t.2.2 ≤ bhi) &&
  ((a.drop t.1).take t.2.2 == (b.drop t.2.1).take t.2.2) &&
  ((b.drop t.2.1).take t.2.2).all (fun c => !isPopular b c)

/-- All triples of the window in the priority order of the dynamic
program: size descending, then start in `a` ascending, then start in `b`
ascending.  The size-0 block `(alo, blo, 0)` closes the list, matching
the initialisation `besti, bestj, bestsize = alo, blo, 0`. -/
def candTriples (alo ahi blo bhi : Nat) : List (Nat × Nat × Nat) :=
  (List.range (min (ahi - alo) (bhi - blo) + 1)).reverse.flatMap (fun k =>
    (List.range' alo (ahi + 1 - alo - k)).flatMap (fun i =>
      (List.range' blo (bhi + 1 - blo - k)).map (fun j => (i, j, k))))

/-- The block the dynamic program of `find_longest_match` returns: the
largest popular-free match, leftmost in `a`, then leftmost in `b`. -/
def bestClean (a b : List Char) (alo ahi blo bhi : Nat) : Nat × Nat × Nat :=
  ((candTriples alo ahi blo bhi).find? (cleanMatchB a b alo ahi blo bhi)).getD
    (alo, blo, 0)

/-- The leftward extension loop of `find_longest_match` (its
`isbjunk` test is constantly false for `isjunk=None`).  `fuel` bounds the
iteration count; each step decrements `i`, which stays above `alo ≥ 0`,
so the initial fuel `i` is never exhausted before the guard fails. -/
def extendLF (a b : List Char) (alo blo : Nat) :
    Nat → Nat → Nat → Nat → Nat × Nat × Nat
  | 0, i, j, k => (i, j, k)
  | fuel + 1, i, j, k =>
    if alo < i ∧ blo < j ∧ a.getD (i - 1) ' ' = b.getD (j - 1) ' ' then
      extendLF a b alo blo fuel (i - 1) (j - 1) (k + 1)
    else (i, j, k)

def extendL (a b : List Char) (alo blo : Nat) (i j k : Nat) :
    Nat × Nat × Nat :=
  extendLF a b alo blo i i j k

/-- The rightward extension loop of `find_longest_match`; each step
increments `k` while `i + k < ahi`, so the initial fuel `ahi - (i + k)`
is never exhausted before the guard fails. -/
def extendRF (a b : List Char) (ahi bhi : Nat) :
    Nat → Nat → Nat → Nat → Nat × Nat × Nat
  | 0, i, j, k => (i, j, k)
  | fuel + 1, i, j, k =>
    if i + k < ahi ∧ j + k < bhi ∧ a.getD (i + k) ' ' = b.getD (j + k) ' ' then
      extendRF a b ahi bhi fuel i j (k + 1)
    else (i, j, k)

def extendR (a b : List Char) (ahi bhi : Nat) (i j k : Nat) :
    Nat × Nat × Nat :=
  extendRF a b ahi bhi (ahi - (i + k)) i j k

/-- `SequenceMatcher.find_longest_match` on the window
`a[alo:ahi]`, `b[blo:bhi]`. -/
def find_longest_match (a b : List Char) (alo ahi blo bhi : Nat) :
    Nat × Nat × Nat :=
  let t0 := bestClean a b alo ahi blo bhi
  let t1 := extendL a b alo blo t0.1 t0.2.1 t0.2.2
  extendR a b ahi bhi t1.1 t1.2.1 t1.2.2

/-- The recursive splitting of `get_matching_blocks`.  `fuel` bounds the
recursion depth; every call keeps `fuel` at least the window measure
`(ahi - alo) + (bhi - blo)`, which a positive-size block strictly
shrinks on both sides, so with the initial fuel `len(a) + len(b)` the
fuel never runs out.  Block order differs from difflib (which sorts at
the end), but only the sum of the sizes feeds `ratio`. -/
def matchingBlocksF (a b : List Char) :
    Nat → Nat → Nat → Nat → Nat → List (Nat × Nat × Nat)
  | 0, _, _, _, _ => []
  | fuel + 1, alo, ahi, blo, bhi =>
    let t := find_longest_match a b alo ahi blo bhi
    if t.2.2 = 0 then []
    else
      matchingBlocksF a b fuel alo t.1 blo t.2.1 ++
      t :: matchingBlocksF a b fuel (t.1 + t.2.2) ahi (t.2.1 + t.2.2) bhi

/-- `sum(triple[-1] for triple in get_matching_blocks())`. -/
def totalMatched (a b : List Char) : Nat :=
  ((matchingBlocksF a b (a.length + b.length) 0 a.length 0 b.length).map
    (fun t => t.2.2)).sum

/-- `SequenceMatcher(None, a, b).ratio()` via `_calculate_ratio`:
`2.0 * matches / length` when `length` is nonzero, else `1.0`.  The
rational `mkRat n d` is `n / d`; the kernel-computable `mkRat` is used
instead of field division. -/
def ratioOf (a b : List Char) : ℚ :=
  if a.length + b.length = 0 then 1
  else mkRat (2 * totalMatched a b) (a.length + b.length)

end Difflib

/-! ### Shared result-field selection

`main_app.py` lines 193-212 and `convert_to_json.py` lines 153-175 pick
the English and Punjabi translation texts with identical code, embedded
once here. -/

/-- The preferred-asset scan `for trans in en_list: if trans.get("asset")
in ["SBMS", "DSSK"]: ... break`. -/
def findPreferred (l : List TransEntry) : Option TransEntry :=
  l.find? (fun t => t.asset == "SBMS".toList || t.asset == "DSSK".toList)

/-- English translation choice of the two local search functions:
the text of the first SBMS/DSSK entry; if that leaves `english_trans`
falsy (no such entry, or its text is the empty string) and the list is
nonempty, the text of the first entry; otherwise the empty string. -/
def pickEnglish (tl : Translations) : List Char :=
  match tl.en with
  | none => []
  | some en_list =>
    if en_list.isEmpty then []
    else
      let e := match findPreferred en_list with
               | some t => t.text
               | none => []
      if e.isEmpty then
        match en_list with
        | t :: _ => t.text
        | [] => []
      else e

/-- Punjabi translation choice: the text of the first "pa" entry if the
key is present and the list nonempty, else the empty string. -/
def pickPunjabi (tl : Translations) : List Char :=
  match tl.pa with
  | some (t :: _) => t.text
  | _ => []

/-- The selection rule exactly as the specification words it: the text of
the first English translation whose asset is SBMS or DSSK if one exists,
otherwise the text of the first English translation, otherwise the empty
string. -/
def englishClaimed (tl : Translations) : List Char :=
  match tl.en with
  | none => []
  | some l =>
    match findPreferred l with
    | some t => t.text
    | none =>
      match l with
      | t :: _ => t.text
      | [] => []

/-- The amended selection rule: the SBMS/DSSK text only counts when it is
nonempty; an empty preferred text falls back to the first entry of the
list. -/
def englishPreferred (tl : Translations) : List Char :=
  match tl.en with
  | none => []
  | some l =>
    match findPreferred l with
    | some t =>
      if t.text.isEmpty then
        match l with
        | h :: _ => h.text
        | [] => []
      else t.text
    | none =>
      match l with
      | h :: _ => h.text
      | [] => []

namespace MainApp

/-- `clean_gurmukhi_text` of `main_app.py` (lines 39-54): collapse
whitespace, remove the Devanagari virama U+094D (`replace('्', '')`,
modelled as a filter), keep only Gurmukhi-block characters and
whitespace, strip.  Unlike the `app.py` variant it does not remove the
Gurmukhi virama U+0A4D. -/
def clean_gurmukhi_text (t : List Char) : List Char :=
  pyStrip (((collapseWS t).filter (fun c => c != '्')).filter
    (fun c => isGurmukhi c || pyIsSpace c))

/-- `[w for w in query_text.split() if len(w) > 2]` over the cleaned
query. -/
def queryWords (q : List Char) : List (List Char) :=
  (pySplit (clean_gurmukhi_text q)).filter (fun w => 2 < w.length)

/-- The result dict appended for a matching record. -/
def resultOf (qws : List (List Char)) (r : Record) : MResult :=
  { gurmukhi := r.gurmukhi
    english := pickEnglish r.translations
    punjabi := pickPunjabi r.translations
    page := r.page
    line := r.line
    asset := r.asset
    match_score := matchScore qws r.gurmukhi }

/-- The linear scan of `search_gurbani` (lines 186-222): score every
record, keep those with positive score, in corpus order. -/
def scanResults (qws : List (List Char)) (data : List Record) :
    List MResult :=
  data.filterMap (fun r =>
    if 0 < matchScore qws r.gurmukhi then some (resultOf qws r) else none)

/-- `search_gurbani(query_text, limit)` of `main_app.py`, with the
corpus file contents as the `data` parameter. -/
def search_gurbani (q : List Char) (data : List Record) (limit : Nat) :
    List MResult :=
  if queryWords q = [] then []
  else
    (sortDescBy (fun r => r.match_score) (scanResults (queryWords q) data)).take
      limit

end MainApp

namespace App

/-- `clean_gurmukhi_text` of `app.py` (lines 144-149): collapse
whitespace, remove both viramas U+0A4D and U+094D, keep only
Gurmukhi-block characters and whitespace, strip. -/
def clean_gurmukhi_text (t : List Char) : List Char :=
  pyStrip (((((collapseWS t).filter (fun c => c != '੍')).filter
    (fun c => c != '्')).filter
    (fun c => isGurmukhi c || pyIsSpace c)))

/-- The reassigned `query_text` after cleaning. -/
def cleanedQuery (q : List Char) : List Char := clean_gurmukhi_text q

/-- `[w for w in query_text.split() if len(w) > 2]`. -/
def queryWords (q : List Char) : List (List Char) :=
  (pySplit (cleanedQuery q)).filter (fun w => 2 < w.length)

/-- The three search strategies joined with spaces and deduplicated by
`list(dict.fromkeys(...))`. -/
def searchQueries (q : List Char) : List (List Char) :=
  dedupByKey (fun s => s)
    [List.intercalate [' '] ((queryWords q).take 5),
     List.intercalate [' '] ((queryWords q).take 3),
     List.intercalate [' '] (((queryWords q).drop 1).take 3)]

/-- The dict appended to `all_results` for one verse of a 200 response. -/
def mkResult (qt : List Char) (v : ApiVerse) : SttmRes :=
  { gurmukhi := v.gurmukhi
    english := v.enBdb.getD []
    page := v.pageNum
    line := v.lineNum
    similarity := Difflib.ratioOf (qt.map pyLower) (v.gurmukhi.map pyLower) }

/-- The query loop: one `requests.get` per search query; a raised
exception anywhere (`Except.error`) aborts the whole accumulation, as an
exception aborts the Python `for` loop.  Non-200 responses contribute no
results. -/
def fetchAll (oracle : List Char → Except (List Char) ApiResponse)
    (qt : List Char) : List (List Char) → Except (List Char) (List SttmRes)
  | [] => .ok []
  | sq :: rest =>
    match oracle sq with
    | .error e => .error e
    | .ok resp =>
      match fetchAll oracle qt rest with
      | .error e => .error e
      | .ok l =>
        .ok ((if resp.status = 200 then resp.verses.map (mkResult qt)
              else []) ++ l)

/-- The `seen`-set dedup of `search_sttm_api` keyed on the gurmukhi
field, keeping the first occurrence. -/
def unique_results (l : List SttmRes) : List SttmRes :=
  dedupByKey (fun r => r.gurmukhi) l

/-- `search_sttm_api(query_text, limit)` of `app.py`: clean, filter short
words (returning `[]` when none remain), fetch, dedup, sort by
similarity descending, truncate; any exception is caught by the
enclosing `try` and yields `[]`. -/
def search_sttm_api (q : List Char) (limit : Nat)
    (oracle : List Char → Except (List Char) ApiResponse) : List SttmRes :=
  if queryWords q = [] then []
  else
    match fetchAll oracle (cleanedQuery q) (searchQueries q) with
    | .ok l =>
      (sortDescBy (fun r => r.similarity) (unique_results l)).take limit
    | .error _ => []

end App

namespace ConvertToJson

/-- `int(primary.get("page")) if "page" in primary else None`, with the
`try`/`except` that maps a raising conversion to `None`. -/
def parseIntField (v : Option TomlVal) : Option Int :=
  v.bind pyIntOf

/-- The per-language dedup of translation texts (lines 91-102), keeping
only languages whose deduplicated list is nonempty. -/
def formatLang (l : List TransEntry) : Option (List TransEntry) :=
  let u := dedupByKey (fun t => t.text) l
  if u.isEmpty then none else some u

def formatTranslations (tl : Translations) : Translations :=
  { en := tl.en.bind formatLang, pa := tl.pa.bind formatLang }

/-- The record built for one `primary` block (lines 75-113); a blank
gurmukhi line is skipped (`none`). -/
def recordOf (fname : List Char) (translations : Translations)
    (primary : Primary) : Option Record :=
  let gurmukhi := pyStrip primary.data
  if gurmukhi.isEmpty then none
  else
    some { source_file := fname
           asset := primary.asset
           page := parseIntField primary.page
           line := parseIntField primary.line
           gurmukhi := gurmukhi
           translations := formatTranslations translations }

/-- The result dict of `convert_to_json.search_gurbani`. -/
def cResultOf (r : Record) : CResult :=
  { gurmukhi := r.gurmukhi
    english := pickEnglish r.translations
    punjabi := pickPunjabi r.translations
    page := r.page
    line := r.line
    asset := r.asset
    all_translations := r.translations }

/-- The scan loop of `convert_to_json.search_gurbani`: append each
matching record and stop as soon as `len(results) >= limit` - checked
only after appending. -/
def searchGo (q qlow : List Char) (limit : Nat) :
    List Record → List CResult → List CResult
  | [], acc => acc.reverse
  | r :: rs, acc =>
    if hasSubstr r.gurmukhi q || hasSubstr (r.gurmukhi.map pyLower) qlow then
      let acc2 := cResultOf r :: acc
      if limit ≤ acc2.length then acc2.reverse
      else searchGo q qlow limit rs acc2
    else searchGo q qlow limit rs acc

/-- `search_gurbani(query_text, json_file, limit)` of
`convert_to_json.py`, with the JSON file contents as the `data`
parameter. -/
def search_gurbani (data : List Record) (q : List Char) (limit : Nat) :
    List CResult :=
  searchGo q (q.map pyLower) limit data []

end ConvertToJson

/-- No two adjacent whitespace characters. -/
def noTwoSpaces : List Char → Bool
  | a :: b :: rest => (!(pyIsSpace a && pyIsSpace b)) && noTwoSpaces (b :: rest)
  | _ => true

/-- Neither the first nor the last character is whitespace. -/
def noEdgeSpace (l : List Char) : Bool :=
  (match l.head? with
   | some c => !pyIsSpace c
   | none => true) &&
  (match l.getLast? with
   | some c => !pyIsSpace c
   | none => true)

/-! ### Generic list lemmas: stable descending sort, keep-first dedup -/

theorem insertDescBy_perm {α β : Type} [LinearOrder β] (key : α → β) (x : α)
    (l : List α) : List.Perm (insertDescBy key x l) (x :: l) := by
  induction l with
  | nil => exact List.Perm.refl _
  | cons y ys ih =>
    rw [insertDescBy]
    split
    · exact List.Perm.refl _
    · exact (ih.cons y).trans (List.Perm.swap x y ys)

theorem sortDescBy_perm {α β : Type} [LinearOrder β] (key : α → β)
    (l : List α) : List.Perm (sortDescBy key l) l := by
  induction l with
  | nil => exact List.Perm.refl _
  | cons x xs ih =>
    exact (insertDescBy_perm key x (sortDescBy key xs)).trans (ih.cons x)

theorem mem_insertDescBy {α β : Type} [LinearOrder β] {key : α → β} {x z : α}
    {l : List α} (h : z ∈ insertDescBy key x l) : z = x ∨ z ∈ l :=
  List.mem_cons.mp ((insertDescBy_perm key x l).mem_iff.mp h)

theorem insertDescBy_pairwise {α β : Type} [LinearOrder β] {key : α → β}
    (x : α) {l : List α}
    (h : List.Pairwise (fun a b => key b ≤ key a) l) :
    List.Pairwise (fun a b => key b ≤ key a) (insertDescBy key x l) := by
  induction l with
  | nil => simp [insertDescBy]
  | cons y ys ih =>
    rw [insertDescBy]
    split
    case isTrue hyx =>
      refine List.Pairwise.cons ?_ h
      intro z hz
      rcases List.mem_cons.mp hz with rfl | hz
      · exact hyx
      · exact le_trans (List.rel_of_pairwise_cons h hz) hyx
    case isFalse hyx =>
      rcases h with _ | ⟨hy, hys⟩
      refine List.Pairwise.cons ?_ (ih hys)
      intro z hz
      rcases mem_insertDescBy hz with rfl | hz
      · exact le_of_lt (lt_of_not_le hyx)
      · exact hy z hz

theorem sortDescBy_pairwise {α β : Type} [LinearOrder β] (key : α → β)
    (l : List α) :
    List.Pairwise (fun a b => key b ≤ key a) (sortDescBy key l) := by
  induction l with
  | nil => exact List.Pairwise.nil
  | cons x xs ih => exact insertDescBy_pairwise x ih

theorem filter_insertDescBy {α β : Type} [LinearOrder β] (key : α → β)
    (x : α) (l : List α) (s : β) :
    (insertDescBy key x l).filter (fun a => decide (key a = s)) =
      if key x = s then x :: l.filter (fun a => decide (key a = s))
      else l.filter (fun a => decide (key a = s)) := by
  induction l with
  | nil => by_cases hx : key x = s <;> simp [insertDescBy, List.filter_cons, hx]
  | cons y ys ih =>
    rw [insertDescBy]
    split
    case isTrue hyx =>
      by_cases hx : key x = s <;> by_cases hy : key y = s <;>
        simp [List.filter_cons, hx, hy]
    case isFalse hyx =>
      have hxy : key x < key y := lt_of_not_le hyx
      by_cases hx : key x = s
      · have hy : ¬ key y = s := fun h => (ne_of_lt hxy) (hx.trans h.symm)
        simp [List.filter_cons, hx, hy, ih]
      · by_cases hy : key y = s <;> simp [List.filter_cons, hx, hy, ih]

theorem sortDescBy_filter_stable {α β : Type} [LinearOrder β] (key : α → β)
    (l : List α) (s : β) :
    (sortDescBy key l).filter (fun a => decide (key a = s)) =
      l.filter (fun a => decide (key a = s)) := by
  induction l with
  | nil => rfl
  | cons x xs ih =>
    rw [sortDescBy, filter_insertDescBy]
    by_cases hx : key x = s <;> simp [hx, ih, List.filter_cons]

theorem dedupByKeyGo_sublist {α β : Type} [DecidableEq β] (key : α → β)
    (l : List α) (seen : List β) : (dedupByKeyGo key l seen).Sublist l := by
  induction l generalizing seen with
  | nil => simp [dedupByKeyGo]
  | cons x xs ih =>
    rw [dedupByKeyGo]
    split
    · exact (ih seen).trans (List.sublist_cons_self x xs)
    · exact (ih (key x :: seen)).cons₂ x

theorem mem_dedupByKeyGo_not_seen {α β : Type} [DecidableEq β] {key : α → β}
    {l : List α} {seen : List β} {z : α} (h : z ∈ dedupByKeyGo key l seen) :
    key z ∉ seen := by
  induction l generalizing seen with
  | nil => simp [dedupByKeyGo] at h
  | cons x xs ih =>
    rw [dedupByKeyGo] at h
    split at h
    · exact ih h
    case isFalse hx =>
      rcases List.mem_cons.mp h with rfl | h
      · exact hx
      · intro hz
        exact ih h (List.mem_cons_of_mem _ hz)

theorem dedupByKeyGo_pairwise {α β : Type} [DecidableEq β] (key : α → β)
    (l : List α) (seen : List β) :
    List.Pairwise (fun a b => key a ≠ key b) (dedupByKeyGo key l seen) := by
  induction l generalizing seen with
  | nil => exact List.Pairwise.nil
  | cons x xs ih =>
    rw [dedupByKeyGo]
    split
    · exact ih seen
    · refine List.Pairwise.cons ?_ (ih (key x :: seen))
      intro z hz h
      exact mem_dedupByKeyGo_not_seen hz (by simp [h])

theorem dedupByKeyGo_find? {α β : Type} [DecidableEq β] (key : α → β)
    (l : List α) (seen : List β) (g : β) (hg : g ∉ seen) :
    (dedupByKeyGo key l seen).find? (fun r => decide (key r = g)) =
      l.find? (fun r => decide (key r = g)) := by
  induction l generalizing seen with
  | nil => simp [dedupByKeyGo]
  | cons x xs ih =>
    rw [dedupByKeyGo]
    split
    case isTrue hx =>
      have hne : ¬ key x = g := fun h => hg (h ▸ hx)
      rw [ih seen hg, List.find?_cons_of_neg _ (by simpa using hne)]
    case isFalse hx =>
      by_cases hxg : key x = g
      · rw [List.find?_cons_of_pos _ (by simpa using hxg),
          List.find?_cons_of_pos _ (by simpa using hxg)]
      · rw [List.find?_cons_of_neg _ (by simpa using hxg),
          List.find?_cons_of_neg _ (by simpa using hxg)]
        refine ih (key x :: seen) ?_
        intro hmem
        rcases List.mem_cons.mp hmem with h | h
        · exact hxg h.symm
        · exact hg h

theorem dedupByKey_sublist {α β : Type} [DecidableEq β] (key : α → β)
    (l : List α) : (dedupByKey key l).Sublist l :=
  dedupByKeyGo_sublist key l []

theorem dedupByKey_pairwise {α β : Type} [DecidableEq β] (key : α → β)
    (l : List α) :
    List.Pairwise (fun a b => key a ≠ key b) (dedupByKey key l) :=
  dedupByKeyGo_pairwise key l []

theorem dedupByKey_find? {α β : Type} [DecidableEq β] (key : α → β)
    (l : List α) (g : β) :
    (dedupByKey key l).find? (fun r => decide (key r = g)) =
      l.find? (fun r => decide (key r = g)) :=
  dedupByKeyGo_find? key l [] g (by simp)

theorem exists_filter_take {α : Type} (p : α → Bool) (l : List α) (n : Nat) :
    ∃ m, (l.take n).filter p = (l.filter p).take m := by
  induction l generalizing n with
  | nil => exact ⟨0, by simp⟩
  | cons x xs ih =>
    cases n with
    | zero => exact ⟨0, by simp⟩
    | succ n =>
      obtain ⟨m, hm⟩ := ih n
      by_cases hx : p x
      · exact ⟨m + 1, by simp [List.filter_cons, hx, hm]⟩
      · exact ⟨m, by simp [List.filter_cons, hx, hm]⟩

theorem filterMap_ite_eq {α γ : Type} (f : α → Nat) (g : α → γ) (l : List α) :
    (l.filterMap (fun r => if 0 < f r then some (g r) else none)) =
      (l.filter (fun r => decide (0 < f r))).map g := by
  induction l with
  | nil => rfl
  | cons x xs ih =>
    by_cases hx : 0 < f x <;>
      simp [List.filterMap_cons, List.filter_cons, hx, ih]

/-! ### Whitespace normalisation lemmas for the cleaning functions -/

theorem collapseWS_ne_nil {l : List Char} (h : l ≠ []) : collapseWS l ≠ [] := by
  induction l with
  | nil => exact absurd rfl h
  | cons a tail ih =>
    cases tail with
    | nil =>
      by_cases ha : pyIsSpace a <;> simp [collapseWS, ha]
    | cons d rest =>
      rw [collapseWS]
      split
      · exact ih (by simp)
      · simp

theorem mem_collapseWS {c : Char} {l : List Char} (h : c ∈ collapseWS l) :
    c = ' ' ∨ (c ∈ l ∧ pyIsSpace c = false) := by
  induction l with
  | nil => simp [collapseWS] at h
  | cons a tail ih =>
    cases tail with
    | nil =>
      by_cases ha : pyIsSpace a
      · simp [collapseWS, ha] at h
        exact Or.inl h
      · simp [collapseWS, ha] at h
        refine Or.inr ⟨?_, ?_⟩
        · simp [h]
        · rw [h]
          simpa using ha
    | cons d rest =>
      rw [collapseWS] at h
      split at h
      · rcases ih h with h1 | ⟨h2, h3⟩
        · exact Or.inl h1
        · exact Or.inr ⟨List.mem_cons_of_mem a h2, h3⟩
      · rcases List.mem_cons.mp h with rfl | hmem
        · by_cases ha : pyIsSpace a
          · simp [ha]
          · simp only [ha, if_false]
            refine Or.inr ⟨List.mem_cons_self a (d :: rest), by simpa using ha⟩
        · rcases ih hmem with h1 | ⟨h2, h3⟩
          · exact Or.inl h1
          · exact Or.inr ⟨List.mem_cons_of_mem a h2, h3⟩

theorem collapseWS_cons_not_ws {c : Char} {cs : List Char}
    (h : pyIsSpace c = false) : collapseWS (c :: cs) = c :: collapseWS cs := by
  cases cs with
  | nil => simp [collapseWS, h]
  | cons d rest => simp [collapseWS, h]

theorem getLast?_collapseWS {l : List Char} {c : Char}
    (hl : l.getLast? = some c) (hc : pyIsSpace c = false) :
    (collapseWS l).getLast? = some c := by
  induction l with
  | nil => simp at hl
  | cons a tail ih =>
    cases tail with
    | nil =>
      simp only [List.getLast?_singleton, Option.some_inj] at hl
      subst hl
      simp [collapseWS, hc]
    | cons d rest =>
      rw [List.getLast?_cons_cons] at hl
      rw [collapseWS]
      split
      · exact ih hl
      · have hne : collapseWS (d :: rest) ≠ [] := collapseWS_ne_nil (by simp)
        cases hcol : collapseWS (d :: rest) with
        | nil => exact absurd hcol hne
        | cons x xs =>
          rw [List.getLast?_cons_cons]
          rw [hcol] at ih
          exact ih hl

theorem noTwoSpaces_tail {a : Char} {l : List Char}
    (h : noTwoSpaces (a :: l) = true) : noTwoSpaces l = true := by
  cases l with
  | nil => rfl
  | cons b rest =>
    rw [noTwoSpaces, Bool.and_eq_true] at h
    exact h.2

theorem noTwoSpaces_pair {a b : Char} {l : List Char}
    (h : noTwoSpaces (a :: l) = true) (hb : l.head? = some b) :
    (pyIsSpace a && pyIsSpace b) = false := by
  cases l with
  | nil => simp at hb
  | cons x rest =>
    simp only [List.head?_cons, Option.some_inj] at hb
    rw [← hb]
    rw [noTwoSpaces, Bool.and_eq_true] at h
    have h1 := h.1
    cases hab : (pyIsSpace a && pyIsSpace x)
    · rfl
    · rw [hab] at h1
      exact absurd h1 (by simp)

theorem noTwoSpaces_cons_not_ws {a : Char} {l : List Char}
    (ha : pyIsSpace a = false) (h : noTwoSpaces l = true) :
    noTwoSpaces (a :: l) = true := by
  cases l with
  | nil => rfl
  | cons b rest =>
    rw [noTwoSpaces]
    simp [ha, h]

theorem noTwoSpaces_collapseWS (l : List Char) :
    noTwoSpaces (collapseWS l) = true := by
  induction l with
  | nil => rfl
  | cons a tail ih =>
    cases tail with
    | nil =>
      by_cases ha : pyIsSpace a <;> simp [collapseWS, ha, noTwoSpaces]
    | cons d rest =>
      rw [collapseWS]
      split
      case isTrue had => exact ih
      case isFalse had =>
        by_cases ha : pyIsSpace a
        · have hd : pyIsSpace d = false := by
            cases hd : pyIsSpace d
            · rfl
            · exact absurd (by simp [ha, hd]) had
          rw [collapseWS_cons_not_ws hd] at ih ⊢
          simp only [ha, if_true]
          rw [noTwoSpaces]
          simp [hd, ih]
        · simp only [ha, if_false]
          exact noTwoSpaces_cons_not_ws (by simpa using ha) ih

theorem collapseWS_eq_self {l : List Char} (h1 : noTwoSpaces l = true)
    (h2 : ∀ c ∈ l, pyIsSpace c = true → c = ' ') : collapseWS l = l := by
  induction l with
  | nil => rfl
  | cons a tail ih =>
    cases tail with
    | nil =>
      by_cases ha : pyIsSpace a
      · have ha2 : a = ' ' := h2 a (by simp) ha
        rw [ha2]
        rw [collapseWS]
        split <;> rfl
      · simp [collapseWS, ha]
    | cons d rest =>
      rw [collapseWS]
      have hpair : (pyIsSpace a && pyIsSpace d) = false := noTwoSpaces_pair h1 rfl
      split
      case isTrue had => exact absurd had (by simp [hpair])
      case isFalse had =>
        have htail := ih (noTwoSpaces_tail h1)
          (fun c hc => h2 c (List.mem_cons_of_mem a hc))
        rw [htail]
        by_cases ha : pyIsSpace a
        · have ha2 : a = ' ' := h2 a (by simp) ha
          rw [ha2]
          have hif : (if pyIsSpace ' ' = true then ' ' else ' ') = ' ' := by
            split <;> rfl
          rw [hif]
        · simp [ha]

theorem mem_rstripWS {c : Char} {l : List Char} (h : c ∈ rstripWS l) :
    c ∈ l := by
  induction l with
  | nil => simp [rstripWS] at h
  | cons a cs ih =>
    rw [rstripWS] at h
    cases hr : rstripWS cs with
    | nil =>
      rw [hr] at h
      by_cases ha : pyIsSpace a
      · simp [ha] at h
      · simp [ha] at h
        rw [h]
        exact List.mem_cons_self a cs
    | cons r rs =>
      rw [hr] at h
      rcases List.mem_cons.mp h with rfl | hmem
      · exact List.mem_cons_self c cs
      · exact List.mem_cons_of_mem a (ih (hr ▸ hmem))

theorem getLast?_rstripWS_not_ws {l : List Char} {c : Char}
    (h : (rstripWS l).getLast? = some c) : pyIsSpace c = false := by
  induction l with
  | nil => simp [rstripWS] at h
  | cons a cs ih =>
    rw [rstripWS] at h
    cases hr : rstripWS cs with
    | nil =>
      rw [hr] at h
      by_cases ha : pyIsSpace a
      · simp [ha] at h
      · rw [if_neg ha] at h
        simp only [List.getLast?_singleton, Option.some_inj] at h
        rw [← h]
        simpa using ha
    | cons r rs =>
      rw [hr] at h
      rw [List.getLast?_cons_cons] at h
      exact ih (hr ▸ h)

theorem head?_rstripWS (l : List Char) :
    rstripWS l = [] ∨ (rstripWS l).head? = l.head? := by
  cases l with
  | nil => exact Or.inl rfl
  | cons a cs =>
    rw [rstripWS]
    cases rstripWS cs with
    | nil =>
      by_cases ha : pyIsSpace a
      · simp [ha]
      · simp [ha]
    | cons r rs => simp

theorem rstripWS_eq_self {l : List Char}
    (h : ∀ c, l.getLast? = some c → pyIsSpace c = false) : rstripWS l = l := by
  induction l with
  | nil => rfl
  | cons a cs ih =>
    cases cs with
    | nil =>
      have := h a (by simp)
      simp [rstripWS, this]
    | cons d rest =>
      have htail := ih (fun c hc => h c (by rwa [List.getLast?_cons_cons]))
      rw [rstripWS, htail]

theorem noTwoSpaces_rstripWS {l : List Char} (h : noTwoSpaces l = true) :
    noTwoSpaces (rstripWS l) = true := by
  induction l with
  | nil => rfl
  | cons a cs ih =>
    rw [rstripWS]
    cases hr : rstripWS cs with
    | nil =>
      by_cases ha : pyIsSpace a <;> simp [ha, noTwoSpaces]
    | cons r rs =>
      have hcs : noTwoSpaces (r :: rs) = true := hr ▸ ih (noTwoSpaces_tail h)
      have hhead : (rstripWS cs).head? = cs.head? := by
        rcases head?_rstripWS cs with h0 | h0
        · rw [h0] at hr
          simp at hr
        · exact h0
      rw [hr] at hhead
      have hpair := noTwoSpaces_pair h hhead.symm
      rw [noTwoSpaces]
      simp [hpair, hcs]

theorem head?_dropWhile_not {p : Char → Bool} {l : List Char} {c : Char}
    (h : (l.dropWhile p).head? = some c) : p c = false := by
  induction l with
  | nil => simp at h
  | cons a cs ih =>
    by_cases ha : p a
    · rw [List.dropWhile_cons_of_pos ha] at h
      exact ih h
    · rw [List.dropWhile_cons_of_neg ha] at h
      simp only [List.head?_cons, Option.some_inj] at h
      rw [← h]
      simpa using ha

theorem noTwoSpaces_dropWhile {l : List Char}
    (h : noTwoSpaces l = true) :
    noTwoSpaces (l.dropWhile pyIsSpace) = true := by
  induction l with
  | nil => rfl
  | cons a cs ih =>
    by_cases ha : pyIsSpace a
    · rw [List.dropWhile_cons_of_pos ha]
      exact ih (noTwoSpaces_tail h)
    · rwa [List.dropWhile_cons_of_neg ha]

theorem mem_pyStrip {c : Char} {l : List Char} (h : c ∈ pyStrip l) : c ∈ l :=
  (List.dropWhile_sublist pyIsSpace).subset (mem_rstripWS h)

theorem pyStrip_head_not_ws {l : List Char} {c : Char}
    (h : (pyStrip l).head? = some c) : pyIsSpace c = false := by
  unfold pyStrip at h
  rcases head?_rstripWS (l.dropWhile pyIsSpace) with h0 | h0
  · rw [h0] at h
    simp at h
  · rw [h0] at h
    exact head?_dropWhile_not h

theorem pyStrip_getLast_not_ws {l : List Char} {c : Char}
    (h : (pyStrip l).getLast? = some c) : pyIsSpace c = false :=
  getLast?_rstripWS_not_ws h

theorem pyStrip_eq_self {l : List Char}
    (h1 : ∀ c, l.head? = some c → pyIsSpace c = false)
    (h2 : ∀ c, l.getLast? = some c → pyIsSpace c = false) : pyStrip l = l := by
  unfold pyStrip
  have hdrop : l.dropWhile pyIsSpace = l := by
    cases l with
    | nil => rfl
    | cons a cs => exact List.dropWhile_cons_of_neg (by simp [h1 a rfl])
  rw [hdrop]
  exact rstripWS_eq_self h2

theorem noTwoSpaces_pyStrip {l : List Char} (h : noTwoSpaces l = true) :
    noTwoSpaces (pyStrip l) = true :=
  noTwoSpaces_rstripWS (noTwoSpaces_dropWhile h)

theorem noEdgeSpace_pyStrip (l : List Char) :
    noEdgeSpace (pyStrip l) = true := by
  unfold noEdgeSpace
  rw [Bool.and_eq_true]
  constructor
  · cases hh : (pyStrip l).head? with
    | none => rfl
    | some c => simp [pyStrip_head_not_ws hh]
  · cases hh : (pyStrip l).getLast? with
    | none => rfl
    | some c => simp [pyStrip_getLast_not_ws hh]

/-! ### Structure of the cleaned text -/

theorem cleanForm_mem {p : Char → Bool} {t : List Char} {c : Char}
    (h : c ∈ pyStrip ((collapseWS t).filter p)) :
    p c = true ∧ (pyIsSpace c = true → c = ' ') := by
  have h1 := mem_pyStrip h
  have h2 := List.mem_filter.mp h1
  refine ⟨h2.2, ?_⟩
  intro hws
  rcases mem_collapseWS h2.1 with h3 | ⟨_, h4⟩
  · exact h3
  · rw [hws] at h4
    exact absurd h4 (by simp)

theorem filter_collapseWS_eq {p : Char → Bool} (hp : p ' ' = true)
    {y : List Char} (h1 : ∀ c ∈ y, p c = true) :
    (collapseWS y).filter p = collapseWS y := by
  rw [List.filter_eq_self]
  intro c hc
  rcases mem_collapseWS hc with rfl | ⟨h2, _⟩
  · exact hp
  · exact h1 c h2

theorem cleanForm_fix {p : Char → Bool} (hp : p ' ' = true)
    {y : List Char} (h1 : ∀ c ∈ y, p c = true) :
    pyStrip ((collapseWS (pyStrip (collapseWS y))).filter p) =
      pyStrip (collapseWS y) := by
  have hzmem : ∀ c ∈ pyStrip (collapseWS y),
      c = ' ' ∨ (c ∈ y ∧ pyIsSpace c = false) :=
    fun c hc => mem_collapseWS (mem_pyStrip hc)
  have hcol : collapseWS (pyStrip (collapseWS y)) = pyStrip (collapseWS y) := by
    apply collapseWS_eq_self
    · exact noTwoSpaces_pyStrip (noTwoSpaces_collapseWS y)
    · intro c hc hws
      rcases hzmem c hc with h | ⟨_, h4⟩
      · exact h
      · rw [hws] at h4
        exact absurd h4 (by simp)
  rw [hcol]
  have hfil : (pyStrip (collapseWS y)).filter p = pyStrip (collapseWS y) := by
    rw [List.filter_eq_self]
    intro c hc
    rcases hzmem c hc with rfl | ⟨h3, _⟩
    · exact hp
    · exact h1 c h3
  rw [hfil]
  exact pyStrip_eq_self (fun c hc => pyStrip_head_not_ws hc)
    (fun c hc => pyStrip_getLast_not_ws hc)

theorem cleanForm_third (p : Char → Bool) (hp : p ' ' = true) (t : List Char) :
    pyStrip ((collapseWS (pyStrip ((collapseWS (pyStrip
        ((collapseWS t).filter p))).filter p))).filter p) =
      pyStrip ((collapseWS (pyStrip ((collapseWS t).filter p))).filter p) := by
  have h1 : ∀ c ∈ pyStrip ((collapseWS t).filter p), p c = true :=
    fun c hc => (cleanForm_mem hc).1
  have step : pyStrip ((collapseWS (pyStrip ((collapseWS t).filter p))).filter p) =
      pyStrip (collapseWS (pyStrip ((collapseWS t).filter p))) := by
    rw [filter_collapseWS_eq hp h1]
  rw [step]
  exact cleanForm_fix hp h1

theorem app_clean_eq_form (t : List Char) :
    App.clean_gurmukhi_text t =
      pyStrip ((collapseWS t).filter
        (fun c => ((isGurmukhi c || pyIsSpace c) && (c != '्')) && (c != '੍'))) := by
  unfold App.clean_gurmukhi_text
  rw [List.filter_filter, List.filter_filter]

theorem main_clean_eq_form (t : List Char) :
    MainApp.clean_gurmukhi_text t =
      pyStrip ((collapseWS t).filter
        (fun c => (isGurmukhi c || pyIsSpace c) && (c != '्'))) := by
  unfold MainApp.clean_gurmukhi_text
  rw [List.filter_filter]

/-- Claim C10, corrected.  Both cleaning functions emit only characters of
the Gurmukhi block plus the space character, with no leading or trailing
whitespace; the `app.py` variant also never emits the virama U+0A4D,
while the `main_app.py` variant keeps it.  Because characters outside the
Gurmukhi block are deleted after whitespace collapsing, interior runs of
more than one space can appear, so one application is not idempotent; a
second application is (a third application changes nothing). -/
theorem c10_amended (t : List Char) :
    ((App.clean_gurmukhi_text t).all
      (fun c => (isGurmukhi c && !(c == '੍')) || c == ' ') = true) ∧
    noEdgeSpace (App.clean_gurmukhi_text t) = true ∧
    App.clean_gurmukhi_text (App.clean_gurmukhi_text (App.clean_gurmukhi_text t)) =
      App.clean_gurmukhi_text (App.clean_gurmukhi_text t) ∧
    ((MainApp.clean_gurmukhi_text t).all
      (fun c => isGurmukhi c || c == ' ') = true) ∧
    noEdgeSpace (MainApp.clean_gurmukhi_text t) = true ∧
    MainApp.clean_gurmukhi_text
        (MainApp.clean_gurmukhi_text (MainApp.clean_gurmukhi_text t)) =
      MainApp.clean_gurmukhi_text (MainApp.clean_gurmukhi_text t) := by
  refine ⟨?_, ?_, ?_, ?_, ?_, ?_⟩
  · rw [List.all_eq_true]
    intro c hc
    rw [app_clean_eq_form] at hc
    obtain ⟨hp, hws⟩ := cleanForm_mem hc
    rw [Bool.and_eq_true, Bool.and_eq_true] at hp
    obtain ⟨⟨hor, -⟩, hvir⟩ := hp
    rw [Bool.or_eq_true] at hor
    rcases hor with hg | hw
    · have hv2 : ¬ c = '੍' := by simpa using hvir
      simp [hg, hv2]
    · rw [hws hw]
      simp
  · rw [app_clean_eq_form]
    exact noEdgeSpace_pyStrip _
  · simp only [app_clean_eq_form]
    exact cleanForm_third _ (by decide) t
  · rw [List.all_eq_true]
    intro c hc
    rw [main_clean_eq_form] at hc
    obtain ⟨hp, hws⟩ := cleanForm_mem hc
    rw [Bool.and_eq_true] at hp
    obtain ⟨hor, -⟩ := hp
    rw [Bool.or_eq_true] at hor
    rcases hor with hg | hw
    · simp [hg]
    · rw [hws hw]
      simp
  · rw [main_clean_eq_form]
    exact noEdgeSpace_pyStrip _
  · simp only [main_clean_eq_form]
    exact cleanForm_third _ (by decide) t

/-- Claim C10 as stated is false: cleaning is not idempotent (deleting the
Latin letter of "ਸ a ਸ" leaves a double space that a second pass
collapses), and the `main_app.py` variant keeps the virama U+0A4D in its
output. -/
theorem c10_counterexample :
    App.clean_gurmukhi_text (App.clean_gurmukhi_text ("ਸ a ਸ".toList)) ≠
      App.clean_gurmukhi_text ("ਸ a ਸ".toList) ∧
    '੍' ∈ MainApp.clean_gurmukhi_text ("ਪ੍ਰਭ".toList) := by
  constructor
  · decide
  · decide

/-! ### English-translation selection -/

theorem scanResults_eq (qws : List (List Char)) (data : List Record) :
    MainApp.scanResults qws data =
      (data.filter (fun r => decide (0 < matchScore qws r.gurmukhi))).map
        (MainApp.resultOf qws) := by
  induction data with
  | nil => rfl
  | cons x xs ih =>
    by_cases hx : 0 < matchScore qws x.gurmukhi <;>
      simp [MainApp.scanResults, List.filterMap_cons, List.filter_cons, hx,
        ih.symm]

/-- Claim C5, corrected: the code's choice coincides with the
asset-priority rule only when an SBMS/DSSK entry, if present, has
nonempty text; an empty preferred text falls back to the first entry of
the English list. -/
theorem c5_amended (tl : Translations) :
    pickEnglish tl = englishPreferred tl := by
  unfold pickEnglish englishPreferred
  cases tl.en with
  | none => rfl
  | some l =>
    cases l with
    | nil => simp [findPreferred]
    | cons a rest =>
      simp only [List.isEmpty_cons, if_neg, Bool.false_eq_true, not_false_iff]
      cases hf : findPreferred (a :: rest) with
      | none => simp
      | some t =>
        by_cases ht : t.text.isEmpty
        · have ht2 : t.text = [] := by simpa using ht
          simp [ht, ht2]
        · have ht2 : t.text.isEmpty = false := by simpa using ht
          simp [ht2]

/-- Claim C5 as stated is false at a record whose first SBMS/DSSK entry
has empty text: the claimed rule yields that empty text, the code falls
back to the first English entry.  The result list of `search_gurbani`
shows the fallback text "y", not the claimed "". -/
theorem c5_counterexample :
    pickEnglish
        { en := some [{ text := "y".toList, asset := "A".toList },
                      { text := [], asset := "SBMS".toList }], pa := none } ≠
      englishClaimed
        { en := some [{ text := "y".toList, asset := "A".toList },
                      { text := [], asset := "SBMS".toList }], pa := none } ∧
    (MainApp.search_gurbani ("ਸਤਿਗੁਰ".toList)
        [{ source_file := [], asset := none, page := none, line := none,
           gurmukhi := "ਸਤਿਗੁਰ".toList,
           translations :=
             { en := some [{ text := "y".toList, asset := "A".toList },
                           { text := [], asset := "SBMS".toList }],
               pa := none } }] 5).map (fun r => r.english) = ["y".toList] := by
  constructor
  · decide
  · decide

/-! ### Early-return and truncation behaviour of the search operations -/

theorem app_search_eq_nil_of_no_words {q : List Char}
    (h : App.queryWords q = []) (limit : Nat)
    (oracle : List Char → Except (List Char) ApiResponse) :
    App.search_sttm_api q limit oracle = [] := by
  unfold App.search_sttm_api
  rw [if_pos h]

theorem main_search_eq_nil_of_no_words {q : List Char}
    (h : MainApp.queryWords q = []) (data : List Record) (limit : Nat) :
    MainApp.search_gurbani q data limit = [] := by
  unfold MainApp.search_gurbani
  rw [if_pos h]

/-- Claim C6, confirmed: a query that cleans to no usable words makes
`search_sttm_api` and `search_gurbani` return the empty list; a missing
`page`/`line` field, or one whose value `int()` cannot parse, is stored
as `None`; a record with no English translation ("en" absent or its list
empty) gets the empty string as its english field. -/
theorem c6_thm :
    (∀ q limit oracle, App.queryWords q = [] →
      App.search_sttm_api q limit oracle = []) ∧
    (∀ q data limit, MainApp.queryWords q = [] →
      MainApp.search_gurbani q data limit = []) ∧
    (∀ fname tr p r, ConvertToJson.recordOf fname tr p = some r →
      ((p.page = none → r.page = none) ∧
       (∀ v, p.page = some v → pyIntOf v = none → r.page = none) ∧
       (p.line = none → r.line = none) ∧
       (∀ v, p.line = some v → pyIntOf v = none → r.line = none))) ∧
    (∀ tl, tl.en = none ∨ tl.en = some [] → pickEnglish tl = []) := by
  refine ⟨?_, ?_, ?_, ?_⟩
  · intro q limit oracle h
    exact app_search_eq_nil_of_no_words h limit oracle
  · intro q data limit h
    exact main_search_eq_nil_of_no_words h data limit
  · intro fname tr p r h
    unfold ConvertToJson.recordOf at h
    dsimp only at h
    split at h
    · exact absurd h (by simp)
    · injection h with h
      refine ⟨?_, ?_, ?_, ?_⟩
      · intro hp
        rw [← h]
        simp [ConvertToJson.parseIntField, hp]
      · intro v hv hnone
        rw [← h]
        simp [ConvertToJson.parseIntField, hv, hnone]
      · intro hp
        rw [← h]
        simp [ConvertToJson.parseIntField, hp]
      · intro v hv hnone
        rw [← h]
        simp [ConvertToJson.parseIntField, hv, hnone]
  · intro tl h
    rcases h with h | h <;> simp [pickEnglish, h]

/-- Witness for C6 at concrete inputs: a two-letter query, a primary
block whose page value "x" fails `int()`, and a record with no English
translations. -/
theorem c6_witness :
    App.search_sttm_api ("ab".toList) 5
        (fun _ => .ok { status := 200, verses := [] }) = [] ∧
    MainApp.search_gurbani ("ab".toList) [] 5 = [] ∧
    ({ source_file := [], asset := none, page := none, line := none,
       gurmukhi := "ਸਤਿ".toList,
       translations := { en := none, pa := none } } : Record).page = none ∧
    pickEnglish { en := none, pa := none } = [] := by
  refine ⟨c6_thm.1 _ 5 _ (by decide), c6_thm.2.1 _ [] 5 (by decide), ?_,
    c6_thm.2.2.2 _ (Or.inl rfl)⟩
  exact (c6_thm.2.2.1 [] { en := none, pa := none }
    { data := "ਸਤਿ".toList, page := some (TomlVal.tStr ("x".toList)),
      line := none, asset := none } _ (by decide)).2.1
    (TomlVal.tStr ("x".toList)) rfl (by decide)

/-- Claim C9, confirmed: when every whitespace-separated word of the
cleaned query has length at most 2, the word filter leaves nothing and
both search operations return the empty list for every oracle and every
corpus, so neither the HTTP API nor the record list is consulted. -/
theorem c9_thm (q : List Char) :
    ((pySplit (App.cleanedQuery q)).all (fun w => decide (w.length ≤ 2)) = true →
      ∀ limit oracle, App.search_sttm_api q limit oracle = []) ∧
    ((pySplit (MainApp.clean_gurmukhi_text q)).all
        (fun w => decide (w.length ≤ 2)) = true →
      ∀ data limit, MainApp.search_gurbani q data limit = []) := by
  constructor
  · intro h limit oracle
    apply app_search_eq_nil_of_no_words _ limit oracle
    unfold App.queryWords
    rw [List.filter_eq_nil_iff]
    intro w hw
    have h2 := List.all_eq_true.mp h w hw
    simp at h2 ⊢
    omega
  · intro h data limit
    apply main_search_eq_nil_of_no_words _ data limit
    unfold MainApp.queryWords
    rw [List.filter_eq_nil_iff]
    intro w hw
    have h2 := List.all_eq_true.mp h w hw
    simp at h2 ⊢
    omega

/-- Witness for C9: both words of the cleaned query "ਸਤ ਗੁ" have length
2, and both searches return the empty list. -/
theorem c9_witness :
    (pySplit (App.cleanedQuery ("ਸਤ ਗੁ".toList))).all
        (fun w => decide (w.length ≤ 2)) = true ∧
    App.search_sttm_api ("ਸਤ ਗੁ".toList) 5
        (fun _ => .ok { status := 200, verses := [] }) = [] ∧
    MainApp.search_gurbani ("ਸਤ ਗੁ".toList) [] 5 = [] :=
  ⟨by decide, (c9_thm _).1 (by decide) 5 _, (c9_thm _).2 (by decide) [] 5⟩

/-- Claim C7, confirmed: the `try` around the whole body of
`search_sttm_api` turns any exception of the fetch loop (the fallible
steps: `requests.get` and `response.json`, modelled by the oracle) into
the empty result list. -/
theorem c7_thm (q : List Char) (limit : Nat)
    (oracle : List Char → Except (List Char) ApiResponse) (e : List Char)
    (h : App.fetchAll oracle (App.cleanedQuery q) (App.searchQueries q) =
      .error e) :
    App.search_sttm_api q limit oracle = [] := by
  unfold App.search_sttm_api
  split
  · rfl
  · rw [h]

/-- Witness for C7: an oracle that always raises makes the fetch fail and
the search return the empty list. -/
theorem c7_witness :
    App.fetchAll (fun _ => .error ("boom".toList))
        (App.cleanedQuery ("ਸਤਿਗੁਰ".toList))
        (App.searchQueries ("ਸਤਿਗੁਰ".toList)) = .error ("boom".toList) ∧
    App.search_sttm_api ("ਸਤਿਗੁਰ".toList) 5 (fun _ => .error ("boom".toList)) = [] :=
  ⟨rfl, c7_thm _ 5 _ _ rfl⟩

/-- Claim C2, confirmed: the local search scans the record list in order;
each record is kept exactly when the number of query words (length
greater than 2, after cleaning) occurring as substrings of its gurmukhi
text is positive, and that count is the stored match_score.  The second
conjunct ties the scan to the full search pipeline. -/
theorem c2_thm (q : List Char) (data : List Record) :
    MainApp.scanResults (MainApp.queryWords q) data =
      (data.filter (fun r => decide (0 <
          ((MainApp.queryWords q).filter
            (fun w => hasSubstr r.gurmukhi w)).length))).map
        (fun r =>
          { gurmukhi := r.gurmukhi
            english := pickEnglish r.translations
            punjabi := pickPunjabi r.translations
            page := r.page
            line := r.line
            asset := r.asset
            match_score := ((MainApp.queryWords q).filter
              (fun w => hasSubstr r.gurmukhi w)).length }) ∧
    ∀ limit, MainApp.search_gurbani q data limit =
      if MainApp.queryWords q = [] then []
      else (sortDescBy (fun r => r.match_score)
            (MainApp.scanResults (MainApp.queryWords q) data)).take limit := by
  constructor
  · rw [scanResults_eq]
    have hpred : ∀ r : Record,
        matchScore (MainApp.queryWords q) r.gurmukhi =
          ((MainApp.queryWords q).filter
            (fun w => hasSubstr r.gurmukhi w)).length :=
      fun r => List.countP_eq_length_filter _ _
    rw [List.filter_congr (fun r _ => by rw [hpred r])]
    apply List.map_congr_left
    intro r hr
    unfold MainApp.resultOf
    rw [hpred r]
  · intro limit
    rfl

/-! ### Bounded result counts (claim C8) -/

theorem searchGo_length (q qlow : List Char) (limit : Nat)
    (data : List Record) :
    ∀ acc : List CResult, acc.length < limit →
      (ConvertToJson.searchGo q qlow limit data acc).length ≤ limit := by
  induction data with
  | nil =>
    intro acc h
    rw [ConvertToJson.searchGo]
    simpa using le_of_lt h
  | cons r rs ih =>
    intro acc h
    rw [ConvertToJson.searchGo]
    split
    · dsimp only
      split
      case isTrue h2 =>
        simpa using h
      case isFalse h2 =>
        exact ih _ (by simpa using Nat.lt_of_not_le h2)
    · exact ih acc h

/-- Claim C8, amended: the two slicing searches return at most `limit`
results for every nonnegative limit; the scan of
`convert_to_json.search_gurbani` checks the limit only after appending,
so its bound holds for `limit ≥ 1` (and fails at `limit = 0`). -/
theorem c8_amended :
    (∀ q limit oracle, (App.search_sttm_api q limit oracle).length ≤ limit) ∧
    (∀ q data limit, (MainApp.search_gurbani q data limit).length ≤ limit) ∧
    (∀ data q limit, 1 ≤ limit →
      (ConvertToJson.search_gurbani data q limit).length ≤ limit) := by
  refine ⟨?_, ?_, ?_⟩
  · intro q limit oracle
    unfold App.search_sttm_api
    split
    · simp
    · split
      · exact List.length_take_le _ _
      · simp
  · intro q data limit
    unfold MainApp.search_gurbani
    split
    · simp
    · exact List.length_take_le _ _
  · intro data q limit h
    exact searchGo_length _ _ _ _ [] (by simpa using h)

/-- Claim C8 as stated is false at `limit = 0`: the limit check of
`convert_to_json.search_gurbani` runs only after a result was appended,
so a corpus with one matching record yields one result, not zero. -/
theorem c8_counterexample :
    ¬ ((ConvertToJson.search_gurbani
        [{ source_file := [], asset := none, page := none, line := none,
           gurmukhi := "ਸਤਿ".toList,
           translations := { en := none, pa := none } }]
        ("ਸਤਿ".toList) 0).length ≤ 0) := by decide

/-- Witness for C8 at `limit = 1` for all three search operations. -/
theorem c8_witness :
    (ConvertToJson.search_gurbani
        [{ source_file := [], asset := none, page := none, line := none,
           gurmukhi := "ਸਤਿ".toList,
           translations := { en := none, pa := none } }]
        ("ਸਤਿ".toList) 1).length ≤ 1 ∧
    (App.search_sttm_api ("ਸਤਿ".toList) 1
        (fun _ => .ok { status := 200, verses := [] })).length ≤ 1 ∧
    (MainApp.search_gurbani ("ਸਤਿ".toList) [] 1).length ≤ 1 :=
  ⟨c8_amended.2.2 _ _ 1 (by decide), c8_amended.1 _ 1 _, c8_amended.2.1 _ [] 1⟩

/-! ### Distinctness and ordering of result lists (claims C1, C3) -/

theorem gurmukhi_ne_symm {α : Type} (key : α → List Char) :
    ∀ {x y : α}, key x ≠ key y → key y ≠ key x :=
  fun h => h.symm

theorem sttm_results_pairwise_ne (q : List Char) (limit : Nat)
    (oracle : List Char → Except (List Char) ApiResponse) :
    List.Pairwise (fun a b : SttmRes => a.gurmukhi ≠ b.gurmukhi)
      (App.search_sttm_api q limit oracle) := by
  unfold App.search_sttm_api
  split
  · exact List.Pairwise.nil
  · split
    case h_1 l heq =>
      have hd : List.Pairwise (fun a b : SttmRes => a.gurmukhi ≠ b.gurmukhi)
          (App.unique_results l) :=
        dedupByKey_pairwise (fun r : SttmRes => r.gurmukhi) l
      have hs : List.Pairwise (fun a b : SttmRes => a.gurmukhi ≠ b.gurmukhi)
          (sortDescBy (fun r : SttmRes => r.similarity) (App.unique_results l)) :=
        ((sortDescBy_perm _ _).pairwise_iff (fun h => h.symm)).mpr hd
      exact hs.sublist (List.take_sublist _ _)
    case h_2 => exact List.Pairwise.nil

/-- Claim C1, amended.  `search_sttm_api` dedups keyed on exact equality
of the gurmukhi field, keeping the first occurrence, so its results have
pairwise-distinct gurmukhi.  `search_gurbani` of `main_app.py` performs
no dedup: its results have pairwise-distinct gurmukhi only when the
corpus records do. -/
theorem c1_amended :
    (∀ q limit oracle,
      List.Pairwise (fun a b : SttmRes => a.gurmukhi ≠ b.gurmukhi)
        (App.search_sttm_api q limit oracle)) ∧
    (∀ (l : List SttmRes) (g : List Char),
      (App.unique_results l).find? (fun r => decide (r.gurmukhi = g)) =
        l.find? (fun r => decide (r.gurmukhi = g))) ∧
    (∀ q data limit,
      List.Pairwise (fun a b : Record => a.gurmukhi ≠ b.gurmukhi) data →
      List.Pairwise (fun a b : MResult => a.gurmukhi ≠ b.gurmukhi)
        (MainApp.search_gurbani q data limit)) := by
  refine ⟨sttm_results_pairwise_ne, ?_, ?_⟩
  · intro l g
    exact dedupByKey_find? (fun r : SttmRes => r.gurmukhi) l g
  · intro q data limit hdata
    unfold MainApp.search_gurbani
    split
    · exact List.Pairwise.nil
    · have h1 : List.Pairwise (fun a b : MResult => a.gurmukhi ≠ b.gurmukhi)
          (MainApp.scanResults (MainApp.queryWords q) data) := by
        rw [scanResults_eq]
        rw [List.pairwise_map]
        exact hdata.filter _
      have h2 := ((sortDescBy_perm (fun r : MResult => r.match_score)
        (MainApp.scanResults (MainApp.queryWords q) data)).pairwise_iff
        (fun h => h.symm)).mpr h1
      exact h2.sublist (List.take_sublist _ _)

/-- Claim C1 as stated is false for `search_gurbani` of `main_app.py`:
with the same record twice in the corpus, both copies match and the
result list repeats the gurmukhi value. -/
theorem c1_counterexample :
    ¬ List.Pairwise (fun a b : MResult => a.gurmukhi ≠ b.gurmukhi)
      (MainApp.search_gurbani ("ਸਤਿਗੁਰ".toList)
        [{ source_file := [], asset := none, page := none, line := none,
           gurmukhi := "ਸਤਿਗੁਰ".toList,
           translations := { en := none, pa := none } },
         { source_file := [], asset := none, page := none, line := none,
           gurmukhi := "ਸਤਿਗੁਰ".toList,
           translations := { en := none, pa := none } }] 10) := by decide

/-- Witness for C1 at concrete inputs: a one-verse API answer and a
duplicate-free corpus. -/
theorem c1_witness :
    List.Pairwise (fun a b : SttmRes => a.gurmukhi ≠ b.gurmukhi)
      (App.search_sttm_api ("ਸਤਿਗੁਰ".toList) 5
        (fun _ => Except.ok (ApiResponse.mk 200
          [ApiVerse.mk ("ਸਤਿ".toList) none none none]))) ∧
    List.Pairwise (fun a b : MResult => a.gurmukhi ≠ b.gurmukhi)
      (MainApp.search_gurbani ("ਸਤਿਗੁਰ".toList)
        [{ source_file := [], asset := none, page := none, line := none,
           gurmukhi := "ਸਤਿਗੁਰ".toList,
           translations := { en := none, pa := none } }] 5) :=
  ⟨c1_amended.1 _ 5 _, c1_amended.2.2 _ _ 5 (by decide)⟩

/-- Claim C3, confirmed: both search operations sort with
`list.sort(key=..., reverse=True)`, a stable descending sort, so every
earlier result has a score at least every later one, and the results
with any fixed score value form a prefix-preserving subsequence of the
pre-sort candidate list (dedup output for `search_sttm_api`, scan output
for `search_gurbani`), truncated by the limit. -/
theorem c3_thm :
    (∀ q limit oracle,
      List.Pairwise (fun a b : SttmRes => b.similarity ≤ a.similarity)
        (App.search_sttm_api q limit oracle)) ∧
    (∀ q data limit,
      List.Pairwise (fun a b : MResult => b.match_score ≤ a.match_score)
        (MainApp.search_gurbani q data limit)) ∧
    (∀ (l : List SttmRes) (limit : Nat) (s : ℚ), ∃ n,
      ((sortDescBy (fun r => r.similarity) l).take limit).filter
          (fun r => decide (r.similarity = s)) =
        (l.filter (fun r => decide (r.similarity = s))).take n) ∧
    (∀ (l : List MResult) (limit : Nat) (s : Nat), ∃ n,
      ((sortDescBy (fun r => r.match_score) l).take limit).filter
          (fun r => decide (r.match_score = s)) =
        (l.filter (fun r => decide (r.match_score = s))).take n) := by
  refine ⟨?_, ?_, ?_, ?_⟩
  · intro q limit oracle
    unfold App.search_sttm_api
    split
    · exact List.Pairwise.nil
    · split
      case h_1 l heq =>
        exact (sortDescBy_pairwise (fun r : SttmRes => r.similarity)
          (App.unique_results l)).sublist (List.take_sublist _ _)
      case h_2 => exact List.Pairwise.nil
  · intro q data limit
    unfold MainApp.search_gurbani
    split
    · exact List.Pairwise.nil
    · exact (sortDescBy_pairwise (fun r : MResult => r.match_score)
        (MainApp.scanResults (MainApp.queryWords q) data)).sublist
        (List.take_sublist _ _)
  · intro l limit s
    obtain ⟨m, hm⟩ := exists_filter_take
      (fun r : SttmRes => decide (r.similarity = s))
      (sortDescBy (fun r => r.similarity) l) limit
    exact ⟨m, by rw [hm, sortDescBy_filter_stable]⟩
  · intro l limit s
    obtain ⟨m, hm⟩ := exists_filter_take
      (fun r : MResult => decide (r.match_score = s))
      (sortDescBy (fun r => r.match_score) l) limit
    exact ⟨m, by rw [hm, sortDescBy_filter_stable]⟩

/-! ### Bounds for the SequenceMatcher ratio (claim C4) -/

theorem cleanMatchB_bounds {a b : List Char} {alo ahi blo bhi : Nat}
    {t : Nat × Nat × Nat}
    (h : Difflib.cleanMatchB a b alo ahi blo bhi t = true) :
    alo ≤ t.1 ∧ t.1 + t.2.2 ≤ ahi ∧ blo ≤ t.2.1 ∧ t.2.1 + t.2.2 ≤ bhi := by
  unfold Difflib.cleanMatchB at h
  simp only [Bool.and_eq_true, decide_eq_true_eq] at h
  exact ⟨h.1.1.1.1.1, h.1.1.1.1.2, h.1.1.1.2, h.1.1.2⟩

theorem bestClean_valid (a b : List Char) (alo ahi blo bhi : Nat)
    (h1 : alo ≤ ahi) (h2 : blo ≤ bhi) :
    alo ≤ (Difflib.bestClean a b alo ahi blo bhi).1 ∧
    (Difflib.bestClean a b alo ahi blo bhi).1 +
      (Difflib.bestClean a b alo ahi blo bhi).2.2 ≤ ahi ∧
    blo ≤ (Difflib.bestClean a b alo ahi blo bhi).2.1 ∧
    (Difflib.bestClean a b alo ahi blo bhi).2.1 +
      (Difflib.bestClean a b alo ahi blo bhi).2.2 ≤ bhi := by
  unfold Difflib.bestClean
  cases hf : (Difflib.candTriples alo ahi blo bhi).find?
      (Difflib.cleanMatchB a b alo ahi blo bhi) with
  | none =>
    simp only [Option.getD_none]
    exact ⟨le_refl _, by simpa using h1, le_refl _, by simpa using h2⟩
  | some t =>
    simp only [Option.getD_some]
    exact cleanMatchB_bounds (List.find?_some hf)

theorem extendLF_bounds (a b : List Char) (alo blo : Nat) :
    ∀ (fuel i j k : Nat), alo ≤ i → blo ≤ j →
      alo ≤ (Difflib.extendLF a b alo blo fuel i j k).1 ∧
      blo ≤ (Difflib.extendLF a b alo blo fuel i j k).2.1 ∧
      (Difflib.extendLF a b alo blo fuel i j k).1 +
        (Difflib.extendLF a b alo blo fuel i j k).2.2 = i + k ∧
      (Difflib.extendLF a b alo blo fuel i j k).2.1 +
        (Difflib.extendLF a b alo blo fuel i j k).2.2 = j + k := by
  intro fuel
  induction fuel with
  | zero =>
    intro i j k h1 h2
    exact ⟨h1, h2, rfl, rfl⟩
  | succ fuel ih =>
    intro i j k h1 h2
    rw [Difflib.extendLF]
    split
    case isTrue h =>
      obtain ⟨g1, g2, g3, g4⟩ := ih (i - 1) (j - 1) (k + 1) (by omega) (by omega)
      have hi : alo < i := h.1
      have hj : blo < j := h.2.1
      exact ⟨g1, g2, by omega, by omega⟩
    case isFalse h => exact ⟨h1, h2, rfl, rfl⟩

theorem extendRF_bounds (a b : List Char) (ahi bhi : Nat) :
    ∀ (fuel i j k : Nat), i + k ≤ ahi → j + k ≤ bhi →
      (Difflib.extendRF a b ahi bhi fuel i j k).1 = i ∧
      (Difflib.extendRF a b ahi bhi fuel i j k).2.1 = j ∧
      (Difflib.extendRF a b ahi bhi fuel i j k).1 +
        (Difflib.extendRF a b ahi bhi fuel i j k).2.2 ≤ ahi ∧
      (Difflib.extendRF a b ahi bhi fuel i j k).2.1 +
        (Difflib.extendRF a b ahi bhi fuel i j k).2.2 ≤ bhi := by
  intro fuel
  induction fuel with
  | zero =>
    intro i j k h1 h2
    exact ⟨rfl, rfl, h1, h2⟩
  | succ fuel ih =>
    intro i j k h1 h2
    rw [Difflib.extendRF]
    split
    case isTrue h =>
      exact ih i j (k + 1) (by omega) (by omega)
    case isFalse h => exact ⟨rfl, rfl, h1, h2⟩

theorem extendL_bounds (a b : List Char) (alo blo i j k : Nat)
    (h1 : alo ≤ i) (h2 : blo ≤ j) :
    alo ≤ (Difflib.extendL a b alo blo i j k).1 ∧
    blo ≤ (Difflib.extendL a b alo blo i j k).2.1 ∧
    (Difflib.extendL a b alo blo i j k).1 +
      (Difflib.extendL a b alo blo i j k).2.2 = i + k ∧
    (Difflib.extendL a b alo blo i j k).2.1 +
      (Difflib.extendL a b alo blo i j k).2.2 = j + k :=
  extendLF_bounds a b alo blo i i j k h1 h2

theorem extendR_bounds (a b : List Char) (ahi bhi i j k : Nat)
    (h1 : i + k ≤ ahi) (h2 : j + k ≤ bhi) :
    (Difflib.extendR a b ahi bhi i j k).1 = i ∧
    (Difflib.extendR a b ahi bhi i j k).2.1 = j ∧
    (Difflib.extendR a b ahi bhi i j k).1 +
      (Difflib.extendR a b ahi bhi i j k).2.2 ≤ ahi ∧
    (Difflib.extendR a b ahi bhi i j k).2.1 +
      (Difflib.extendR a b ahi bhi i j k).2.2 ≤ bhi :=
  extendRF_bounds a b ahi bhi (ahi - (i + k)) i j k h1 h2

theorem flm_valid (a b : List Char) (alo ahi blo bhi : Nat)
    (h1 : alo ≤ ahi) (h2 : blo ≤ bhi) :
    alo ≤ (Difflib.find_longest_match a b alo ahi blo bhi).1 ∧
    (Difflib.find_longest_match a b alo ahi blo bhi).1 +
      (Difflib.find_longest_match a b alo ahi blo bhi).2.2 ≤ ahi ∧
    blo ≤ (Difflib.find_longest_match a b alo ahi blo bhi).2.1 ∧
    (Difflib.find_longest_match a b alo ahi blo bhi).2.1 +
      (Difflib.find_longest_match a b alo ahi blo bhi).2.2 ≤ bhi := by
  obtain ⟨b1, b2, b3, b4⟩ := bestClean_valid a b alo ahi blo bhi h1 h2
  obtain ⟨l1, l2, l3, l4⟩ := extendL_bounds a b alo blo
    (Difflib.bestClean a b alo ahi blo bhi).1
    (Difflib.bestClean a b alo ahi blo bhi).2.1
    (Difflib.bestClean a b alo ahi blo bhi).2.2 b1 b3
  obtain ⟨r1, r2, r3, r4⟩ := extendR_bounds a b ahi bhi
    (Difflib.extendL a b alo blo
      (Difflib.bestClean a b alo ahi blo bhi).1
      (Difflib.bestClean a b alo ahi blo bhi).2.1
      (Difflib.bestClean a b alo ahi blo bhi).2.2).1
    (Difflib.extendL a b alo blo
      (Difflib.bestClean a b alo ahi blo bhi).1
      (Difflib.bestClean a b alo ahi blo bhi).2.1
      (Difflib.bestClean a b alo ahi blo bhi).2.2).2.1
    (Difflib.extendL a b alo blo
      (Difflib.bestClean a b alo ahi blo bhi).1
      (Difflib.bestClean a b alo ahi blo bhi).2.1
      (Difflib.bestClean a b alo ahi blo bhi).2.2).2.2
    (by omega) (by omega)
  have hgoal : Difflib.find_longest_match a b alo ahi blo bhi =
      Difflib.extendR a b ahi bhi
        (Difflib.extendL a b alo blo
          (Difflib.bestClean a b alo ahi blo bhi).1
          (Difflib.bestClean a b alo ahi blo bhi).2.1
          (Difflib.bestClean a b alo ahi blo bhi).2.2).1
        (Difflib.extendL a b alo blo
          (Difflib.bestClean a b alo ahi blo bhi).1
          (Difflib.bestClean a b alo ahi blo bhi).2.1
          (Difflib.bestClean a b alo ahi blo bhi).2.2).2.1
        (Difflib.extendL a b alo blo
          (Difflib.bestClean a b alo ahi blo bhi).1
          (Difflib.bestClean a b alo ahi blo bhi).2.1
          (Difflib.bestClean a b alo ahi blo bhi).2.2).2.2 := rfl
  rw [hgoal]
  exact ⟨by omega, by omega, by omega, by omega⟩

theorem mbF_total_le (a b : List Char) :
    ∀ (fuel alo ahi blo bhi : Nat), alo ≤ ahi → blo ≤ bhi →
      ((Difflib.matchingBlocksF a b fuel alo ahi blo bhi).map
        (fun t => t.2.2)).sum ≤ min (ahi - alo) (bhi - blo) := by
  intro fuel
  induction fuel with
  | zero =>
    intro alo ahi blo bhi h1 h2
    simp [Difflib.matchingBlocksF]
  | succ fuel ih =>
    intro alo ahi blo bhi h1 h2
    rw [Difflib.matchingBlocksF]
    split
    · simp
    case isFalse hk =>
      obtain ⟨f1, f2, f3, f4⟩ := flm_valid a b alo ahi blo bhi h1 h2
      have hL := ih alo (Difflib.find_longest_match a b alo ahi blo bhi).1
        blo (Difflib.find_longest_match a b alo ahi blo bhi).2.1 f1 f3
      have hR := ih
        ((Difflib.find_longest_match a b alo ahi blo bhi).1 +
          (Difflib.find_longest_match a b alo ahi blo bhi).2.2) ahi
        ((Difflib.find_longest_match a b alo ahi blo bhi).2.1 +
          (Difflib.find_longest_match a b alo ahi blo bhi).2.2) bhi f2 f4
      rw [List.map_append, List.sum_append, List.map_cons, List.sum_cons]
      have hL1 := le_trans hL (min_le_left _ _)
      have hL2 := le_trans hL (min_le_right _ _)
      have hR1 := le_trans hR (min_le_left _ _)
      have hR2 := le_trans hR (min_le_right _ _)
      rw [Nat.le_min]
      constructor <;> omega

theorem ratioOf_bounds (a b : List Char) :
    0 ≤ Difflib.ratioOf a b ∧ Difflib.ratioOf a b ≤ 1 := by
  unfold Difflib.ratioOf
  split
  · norm_num
  case isFalse hT =>
    have hm := mbF_total_le a b (a.length + b.length) 0 a.length 0 b.length
      (Nat.zero_le _) (Nat.zero_le _)
    have h2m : 2 * Difflib.totalMatched a b ≤ a.length + b.length := by
      unfold Difflib.totalMatched
      have hma := le_trans hm (min_le_left _ _)
      have hmb := le_trans hm (min_le_right _ _)
      omega
    have hpos : (0 : ℚ) < (a.length : ℚ) + (b.length : ℚ) := by
      have : 0 < a.length + b.length := Nat.pos_of_ne_zero hT
      exact_mod_cast this
    constructor
    · rw [Rat.mkRat_eq_div]
      positivity
    · rw [Rat.mkRat_eq_div]
      rw [div_le_one (by exact_mod_cast hpos)]
      push_cast
      exact_mod_cast h2m

theorem fetchAll_ok_shape
    (oracle : List Char → Except (List Char) ApiResponse) (qt : List Char) :
    ∀ (qs : List (List Char)) (l : List SttmRes),
      App.fetchAll oracle qt qs = .ok l →
      ∀ r ∈ l, r.similarity =
        Difflib.ratioOf (qt.map pyLower) (r.gurmukhi.map pyLower) := by
  intro qs
  induction qs with
  | nil =>
    intro l h r hr
    injection h with h
    rw [← h] at hr
    simp at hr
  | cons sq rest ih =>
    intro l h r hr
    rw [App.fetchAll] at h
    cases ho : oracle sq with
    | error e =>
      rw [ho] at h
      exact absurd h (by simp)
    | ok resp =>
      rw [ho] at h
      cases hrec : App.fetchAll oracle qt rest with
      | error e =>
        rw [hrec] at h
        exact absurd h (by simp)
      | ok l2 =>
        rw [hrec] at h
        injection h with h
        rw [← h] at hr
        rcases List.mem_append.mp hr with hr1 | hr2
        · split at hr1
          · obtain ⟨v, hv, hrv⟩ := List.mem_map.mp hr1
            rw [← hrv]
            rfl
          · simp at hr1
        · exact ih l2 hrec r hr2

/-- Claim C4, confirmed: every result of `search_sttm_api` carries as its
similarity the SequenceMatcher ratio of the lowercased cleaned query
against its own lowercased gurmukhi text, and that ratio lies in the
closed interval from 0 to 1. -/
theorem c4_thm (q : List Char) (limit : Nat)
    (oracle : List Char → Except (List Char) ApiResponse) (r : SttmRes)
    (hr : r ∈ App.search_sttm_api q limit oracle) :
    r.similarity = Difflib.ratioOf ((App.cleanedQuery q).map pyLower)
        (r.gurmukhi.map pyLower) ∧
    0 ≤ r.similarity ∧ r.similarity ≤ 1 := by
  unfold App.search_sttm_api at hr
  split at hr
  · simp at hr
  · split at hr
    case h_1 l heq =>
      have hmem : r ∈ l := by
        have hs : r ∈ sortDescBy (fun x : SttmRes => x.similarity)
            (App.unique_results l) := List.mem_of_mem_take hr
        have hu : r ∈ App.unique_results l :=
          ((sortDescBy_perm _ _).mem_iff).mp hs
        exact (dedupByKey_sublist _ l).subset hu
      have hshape := fetchAll_ok_shape oracle (App.cleanedQuery q) _ l heq r hmem
      refine ⟨hshape, ?_, ?_⟩
      · rw [hshape]
        exact (ratioOf_bounds _ _).1
      · rw [hshape]
        exact (ratioOf_bounds _ _).2
    case h_2 => simp at hr

/-- Witness for C4: a one-verse API answer; the single result carries the
ratio of "ਸਤਿਗੁਰ" against "ਸਤਿ". -/
theorem c4_witness :
    (App.mkResult (App.cleanedQuery ("ਸਤਿਗੁਰ".toList))
        (ApiVerse.mk ("ਸਤਿ".toList) none none none) ∈
      App.search_sttm_api ("ਸਤਿਗੁਰ".toList) 5
        (fun _ => Except.ok (ApiResponse.mk 200
          [ApiVerse.mk ("ਸਤਿ".toList) none none none]))) ∧
    ((App.mkResult (App.cleanedQuery ("ਸਤਿਗੁਰ".toList))
        (ApiVerse.mk ("ਸਤਿ".toList) none none none)).similarity =
      Difflib.ratioOf ((App.cleanedQuery ("ਸਤਿਗੁਰ".toList)).map pyLower)
        (((App.mkResult (App.cleanedQuery ("ਸਤਿਗੁਰ".toList))
          (ApiVerse.mk ("ਸਤਿ".toList) none none none)).gurmukhi).map pyLower) ∧
      0 ≤ (App.mkResult (App.cleanedQuery ("ਸਤਿਗੁਰ".toList))
        (ApiVerse.mk ("ਸਤਿ".toList) none none none)).similarity ∧
      (App.mkResult (App.cleanedQuery ("ਸਤਿਗੁਰ".toList))
        (ApiVerse.mk ("ਸਤਿ".toList) none none none)).similarity ≤ 1) := by
  constructor
  · decide
  · exact c4_thm ("ਸਤਿਗੁਰ".toList) 5
      (fun _ => Except.ok (ApiResponse.mk 200
        [ApiVerse.mk ("ਸਤਿ".toList) none none none])) _ (by decide)
